import Mathlib

/-!
# TTL cache (`pkg/cache/cache.go`)

A shallow embedding of the in-process key/value cache with per-entry expiration.

Modelling choices.

* `time.Time` values produced by `time.Now()` carry a monotonic clock reading, and
  `Add` / `After` operate on that reading.  A time is therefore an integer number of
  nanoseconds on one linear clock, a duration is a (possibly negative) integer number
  of nanoseconds, `Add` is integer addition and `After` is strict order.
* The Go map `map[string]cacheItem` is a finite map with unique keys and no order
  (`Finmap`); `c.data[key] = x` is `Finmap.insert`, `delete(c.data, key)` is
  `Finmap.erase`, `c.data[key]` with the comma-ok form is `Finmap.lookup`, and a
  `range` loop is a fold whose result does not depend on the order of visit.
* `json.Marshal` / `json.Unmarshal` belong to the standard library: they are taken as
  a parameter (`Codec`).
* Every method holds the cache's lock for its whole body, so a method call is one
  atomic step on the cache state; the current time is an explicit argument.  An execution
  of several goroutines is a sequence of such calls.
* Where a statement needs values that can alias the memory of the caller, or a copy that
  can fail, a fragment of Go values and of `encoding/json` on them is used (`GoValue`,
  `goCodec`).
-/

namespace cache

/-- A reading of the clock (`time.Time`), in nanoseconds. -/
abbrev Time := Int

/-- A span of time (`time.Duration`), in nanoseconds; it may be negative. -/
abbrev Duration := Int

/-- The method `t.Add(d)` of `time.Time`. -/
def Time.Add (t : Time) (d : Duration) : Time := t + d

/-- The method `t.After(u)` of `time.Time`: `t` is strictly later than `u`. -/
def Time.After (t u : Time) : Bool := decide (u < t)

/-- The stored record `cacheItem`: the value and the instant it stops being valid. -/
structure cacheItem (V : Type) where
  Data : V
  ExpiresAt : Time
  deriving DecidableEq

/-- The Go map `map[string]cacheItem`. -/
abbrev Store (V : Type) := Finmap (fun _ : String => cacheItem V)

/-- The struct `Cache` without its lock: the map and the default time to live. -/
structure Cache (V : Type) where
  data : Store V
  defaultTTL : Duration

/-- The standard library's `json.Marshal` and `json.Unmarshal`, as used by `Get`.
`Marshal x` is `none` when the call returns an error.  `Unmarshal b v` gives the content
of the target `v` after the call together with the flag `err == nil`. -/
structure Codec (V B O : Type) where
  Marshal : V → Option B
  Unmarshal : B → O → O × Bool

/-- The constructor `NewCache`: an empty map and the given default. -/
def NewCache {V : Type} (defaultTTL : Duration) : Cache V :=
  { data := ∅, defaultTTL := defaultTTL }

/-- The local variable `duration` of `Set`: the default, replaced by `ttl[0]` when
`len(ttl) > 0`. -/
def Cache.duration {V : Type} (c : Cache V) (ttl : List Duration) : Duration :=
  match ttl with
  | [] => c.defaultTTL
  | d :: _ => d

/-- The method `Set`, called when the clock reads `now`. -/
def Cache.Set {V : Type} (c : Cache V) (now : Time) (key : String) (data : V)
    (ttl : List Duration) : Cache V :=
  { c with
    data := c.data.insert key { Data := data, ExpiresAt := Time.Add now (c.duration ttl) } }

/-- The method `Get`, called when the clock reads `now` with a target holding `v`.
The result is the returned flag and the content of the target afterwards. -/
def Cache.Get {V B O : Type} (codec : Codec V B O) (c : Cache V) (now : Time)
    (key : String) (v : O) : Bool × O :=
  match c.data.lookup key with
  | none => (false, v)
  | some item =>
    if Time.After now item.ExpiresAt then (false, v)
    else
      match codec.Marshal item.Data with
      | none => (false, v)
      | some dataBytes =>
        match codec.Unmarshal dataBytes v with
        | (v', true) => (true, v')
        | (v', false) => (false, v')

/-- The method `Delete`. -/
def Cache.Delete {V : Type} (c : Cache V) (key : String) : Cache V :=
  { c with data := c.data.erase key }

/-- The method `Expired`, called when the clock reads `now`. -/
def Cache.Expired {V : Type} (c : Cache V) (now : Time) (key : String) : Bool :=
  match c.data.lookup key with
  | none => true
  | some item => Time.After now item.ExpiresAt

/-- The body of the loop of `Cleanup` for one visited pair. -/
def cleanupStep {V : Type} (now : Time) (data : Store V) (key : String)
    (item : cacheItem V) : Store V :=
  if Time.After now item.ExpiresAt then data.erase key else data

/-- The method `Cleanup`, called when the clock reads `now`: the loop visits every
pair of the map once, in no particular order, and deletes the visited key from the
map when its entry is past its expiry. -/
def Cache.Cleanup {V : Type} (c : Cache V) (now : Time) : Cache V :=
  { c with
    data := Finmap.foldl (cleanupStep now)
      (by
        intro d k₁ i₁ k₂ i₂
        unfold cleanupStep
        split_ifs <;> first | rfl | exact Finmap.erase_erase)
      c.data c.data }

/-- One call of a method of the cache, with its arguments. -/
inductive Op (V : Type) where
  | Set (key : String) (data : V) (ttl : List Duration)
  | Get (key : String)
  | Delete (key : String)
  | Expired (key : String)
  | Cleanup

/-- The cache after one call made when the clock reads `now`.  `Get` and `Expired`
take the read lock only and assign nothing. -/
def Cache.step {V : Type} (c : Cache V) (now : Time) : Op V → Cache V
  | Op.Set key data ttl => c.Set now key data ttl
  | Op.Get _ => c
  | Op.Delete key => c.Delete key
  | Op.Expired _ => c
  | Op.Cleanup => c.Cleanup now

/-- The cache after a sequence of calls, each with the reading of the clock at which
it is made. -/
def Cache.run {V : Type} (c : Cache V) : List (Time × Op V) → Cache V
  | [] => c
  | (now, op) :: rest => (c.step now op).run rest

/-- The call is a `Set` on `key`. -/
def Op.isSetOn {V : Type} (key : String) : Op V → Bool
  | Op.Set k _ _ => decide (k = key)
  | _ => false

/-- A codec on strings that copies its argument, used to instantiate the statements. -/
def copyCodec : Codec String String String :=
  { Marshal := fun x => some x, Unmarshal := fun b _ => (b, true) }

/-- The call is a `Get` or an `Expired`: a method that takes the read lock only. -/
def Op.isRead {V : Type} : Op V → Bool
  | Op.Get _ => true
  | Op.Expired _ => true
  | _ => false

/-- A fragment of the values a caller can pass as `data interface{}`.  `int n` is an
integer of one of the integer types, known by its value; `str s` is a string of valid
text; `ptr addr` is a non-nil pointer to an integer variable of the caller, given by its
address; `nil` is a nil pointer; `chan` is a channel, a kind of value that `encoding/json`
does not support; `pair a b` is a struct held by value with two exported fields. -/
inductive GoValue where
  | int (n : Int)
  | str (s : String)
  | ptr (addr : Nat)
  | nil
  | chan
  | pair (a b : GoValue)
  deriving DecidableEq

/-- The integer variables of the caller, by address. -/
abbrev Heap := Nat → Int

/-- The encodings that `json.Marshal` produces for the values of `GoValue`: a number, a
string, `null`, or an object with the two fields of a `pair`. -/
inductive Encoded where
  | num (n : Int)
  | str (s : String)
  | null
  | pair (a b : Encoded)
  deriving DecidableEq

/-- The content of a target of `Get` that holds no pointer: an `int` variable, a `string`
variable, or a struct variable with the two fields of a `pair`. -/
inductive Plain where
  | int (n : Int)
  | str (s : String)
  | pair (a b : Plain)
  deriving DecidableEq

/-- The value is, or contains, a reference into the memory of the caller. -/
def GoValue.hasRef : GoValue → Bool
  | GoValue.ptr _ => true
  | GoValue.pair a b => a.hasRef || b.hasRef
  | _ => false

/-- The number fits the type `int` of a 64-bit platform. -/
def inInt64 (n : Int) : Bool :=
  decide (-9223372036854775808 ≤ n ∧ n ≤ 9223372036854775807)

/-- The standard library's `json.Marshal` on `GoValue`, when the memory of the caller is
`h`: an integer encodes as a number, a string as a string, a non-nil pointer as the value
it points to at the time of the call, a nil pointer as `null`, a struct as the object of
its encoded fields; a channel, alone or in a field, is an error. -/
def goMarshal (h : Heap) : GoValue → Option Encoded
  | GoValue.int n => some (Encoded.num n)
  | GoValue.str s => some (Encoded.str s)
  | GoValue.ptr addr => some (Encoded.num (h addr))
  | GoValue.nil => some Encoded.null
  | GoValue.chan => none
  | GoValue.pair a b =>
    match goMarshal h a, goMarshal h b with
    | some x, some y => some (Encoded.pair x y)
    | _, _ => none

/-- The standard library's `json.Unmarshal` into a target without pointers.  `null`
leaves the target as it is, without error.  A number is stored in an `int` target when it
fits 64 bits, a string in a `string` target, and an object in a struct target field by
field: a field that cannot be stored is skipped, the others are stored, and the call
returns the error.  Every other combination is an error and leaves the target as it
was. -/
def goUnmarshal : Encoded → Plain → Plain × Bool
  | Encoded.null, v => (v, true)
  | Encoded.num n, Plain.int m =>
    if inInt64 n then (Plain.int n, true) else (Plain.int m, false)
  | Encoded.str s, Plain.str _ => (Plain.str s, true)
  | Encoded.pair x y, Plain.pair a b =>
    (Plain.pair (goUnmarshal x a).1 (goUnmarshal y b).1,
      (goUnmarshal x a).2 && (goUnmarshal y b).2)
  | _, v => (v, false)

/-- The codec seen by a `Get` into a target without pointers made when the memory of the
caller is `h`. -/
def goCodec (h : Heap) : Codec GoValue Encoded Plain :=
  { Marshal := goMarshal h, Unmarshal := goUnmarshal }

/-- The call can take the entry of `key` out of the map or replace it: a `Set` or a
`Delete` on `key`, or a `Cleanup`. -/
def Op.mayRemove {V : Type} (key : String) : Op V → Bool
  | Op.Set k _ _ => decide (k = key)
  | Op.Delete k => decide (k = key)
  | Op.Cleanup => true
  | _ => false

/-- The two calls that one goroutine of `TestCache_ConcurrentAccess` makes, in order, for
its own key and value: `cache.Set(key, value)` and then `cache.Get(key, &retrieved)`. -/
def pairCalls {V : Type} (p : String × V) : List (Op V) :=
  [Op.Set p.1 p.2 [], Op.Get p.1]

/-! ## Auxiliary facts -/

theorem foldl_cleanupStep_lookup {V : Type} (now : Time) (k : String) :
    ∀ (l : List (Sigma fun _ : String => cacheItem V)), l.NodupKeys → ∀ d : Store V,
      (l.foldl (fun d s => cleanupStep now d s.1 s.2) d).lookup k =
        match l.dlookup k with
        | some it => if Time.After now it.ExpiresAt then none else d.lookup k
        | none => d.lookup k := by
  intro l
  induction l with
  | nil => intro _ d; simp
  | cons hd tl ih =>
    intro hnd d
    obtain ⟨k', it'⟩ := hd
    rw [List.nodupKeys_cons] at hnd
    rw [List.foldl_cons, ih hnd.2]
    by_cases hk : k = k'
    · subst hk
      have hnone : tl.dlookup k = none := List.dlookup_eq_none.mpr hnd.1
      rw [hnone, List.dlookup_cons_eq]
      simp only [cleanupStep]
      split_ifs with h
      · exact Finmap.lookup_erase k d
      · rfl
    · rw [List.dlookup_cons_ne _ _ hk]
      have hstep : (cleanupStep now d k' it').lookup k = d.lookup k := by
        unfold cleanupStep
        split_ifs
        · exact Finmap.lookup_erase_ne hk
        · rfl
      rw [hstep]

theorem Cleanup_lookup {V : Type} (c : Cache V) (now : Time) (k : String) :
    (c.Cleanup now).data.lookup k =
      (c.data.lookup k).filter (fun it => !Time.After now it.ExpiresAt) := by
  obtain ⟨data, ttl⟩ := c
  simp only [Cache.Cleanup]
  induction data using Finmap.induction_on with
  | H s =>
    simp only [Finmap.foldl, AList.toFinmap_entries, Multiset.coe_foldl]
    rw [foldl_cleanupStep_lookup now k s.entries s.nodupKeys, Finmap.lookup_toFinmap]
    simp only [AList.lookup]
    cases s.entries.dlookup k with
    | none => rfl
    | some it => by_cases h : Time.After now it.ExpiresAt <;> simp [Option.filter, h]

theorem duration_eq_headD {V : Type} (c : Cache V) (ttl : List Duration) :
    c.duration ttl = ttl.headD c.defaultTTL := by
  cases ttl <;> rfl

theorem Cache.ext_lookup {V : Type} {c₁ c₂ : Cache V}
    (hd : ∀ k, c₁.data.lookup k = c₂.data.lookup k) (ht : c₁.defaultTTL = c₂.defaultTTL) :
    c₁ = c₂ := by
  obtain ⟨d₁, t₁⟩ := c₁
  obtain ⟨d₂, t₂⟩ := c₂
  simp only at hd ht
  rw [Finmap.ext_lookup hd, ht]

theorem After_eq_true_iff (t u : Time) : Time.After t u = true ↔ u < t := by
  simp [Time.After]

theorem After_eq_false_iff (t u : Time) : Time.After t u = false ↔ t ≤ u := by
  simp [Time.After]

theorem Get_of_lookup_none {V B O : Type} (codec : Codec V B O) (c : Cache V) (now : Time)
    (key : String) (v : O) (h : c.data.lookup key = none) :
    c.Get codec now key v = (false, v) := by
  simp [Cache.Get, h]

theorem Get_of_expired {V B O : Type} (codec : Codec V B O) (c : Cache V) (now : Time)
    (key : String) (v : O) (it : cacheItem V) (h : c.data.lookup key = some it)
    (hexp : it.ExpiresAt < now) : c.Get codec now key v = (false, v) := by
  simp [Cache.Get, h, (After_eq_true_iff now it.ExpiresAt).mpr hexp]

theorem Get_of_live {V B O : Type} (codec : Codec V B O) (c : Cache V) (now : Time)
    (key : String) (v v' : O) (it : cacheItem V) (b : B) (h : c.data.lookup key = some it)
    (hlive : now ≤ it.ExpiresAt) (hm : codec.Marshal it.Data = some b)
    (hu : codec.Unmarshal b v = (v', true)) : c.Get codec now key v = (true, v') := by
  simp [Cache.Get, h, (After_eq_false_iff now it.ExpiresAt).mpr hlive, hm, hu]

theorem Set_lookup_self {V : Type} (c : Cache V) (now : Time) (key : String) (data : V)
    (ttl : List Duration) :
    (c.Set now key data ttl).data.lookup key
      = some { Data := data, ExpiresAt := now + ttl.headD c.defaultTTL } := by
  simp [Cache.Set, Time.Add, duration_eq_headD, Finmap.lookup_insert]

theorem step_defaultTTL {V : Type} (c : Cache V) (now : Time) (op : Op V) :
    (c.step now op).defaultTTL = c.defaultTTL := by
  cases op <;> rfl

theorem run_defaultTTL {V : Type} (ops : List (Time × Op V)) :
    ∀ c : Cache V, (c.run ops).defaultTTL = c.defaultTTL := by
  induction ops with
  | nil => intro c; rfl
  | cons hd tl ih =>
    intro c
    obtain ⟨now, op⟩ := hd
    simp only [Cache.run]
    rw [ih, step_defaultTTL]

theorem step_lookup_of_not_set {V : Type} (c : Cache V) (now : Time) (op : Op V)
    (k : String) (hop : Op.isSetOn k op = false) :
    (c.step now op).data.lookup k = none ∨
      (c.step now op).data.lookup k = c.data.lookup k := by
  cases op with
  | Set key data ttl =>
    have hne : k ≠ key := by
      intro h
      simp [Op.isSetOn, h] at hop
    right
    simp only [Cache.step, Cache.Set]
    exact Finmap.lookup_insert_of_ne _ hne
  | Get key => right; rfl
  | Delete key =>
    simp only [Cache.step, Cache.Delete]
    by_cases h : k = key
    · left; subst h; exact Finmap.lookup_erase _ _
    · right; exact Finmap.lookup_erase_ne h
  | Expired key => right; rfl
  | Cleanup =>
    simp only [Cache.step]
    rw [Cleanup_lookup]
    cases hl : c.data.lookup k with
    | none => left; rfl
    | some it =>
      by_cases h : Time.After now it.ExpiresAt
      · left; simp [Option.filter, h]
      · right; simp [Option.filter, h]

theorem run_lookup_of_not_set {V : Type} (k : String) (ops : List (Time × Op V))
    (hno : ∀ p ∈ ops, Op.isSetOn k p.2 = false) :
    ∀ c : Cache V, (c.run ops).data.lookup k = none ∨
      (c.run ops).data.lookup k = c.data.lookup k := by
  induction ops with
  | nil => intro c; right; rfl
  | cons hd tl ih =>
    intro c
    obtain ⟨now, op⟩ := hd
    simp only [Cache.run]
    have htl : ∀ p ∈ tl, Op.isSetOn k p.2 = false :=
      fun p hp => hno p (List.mem_cons_of_mem _ hp)
    have hhd : Op.isSetOn k op = false := hno (now, op) (List.mem_cons_self _ _)
    rcases ih htl (c.step now op) with h | h
    · left; exact h
    · rcases step_lookup_of_not_set c now op k hhd with h' | h'
      · left; rw [h, h']
      · right; rw [h, h']

theorem Get_congr_lookup {V B O : Type} (codec : Codec V B O) (c₁ c₂ : Cache V)
    (now : Time) (key : String) (v : O) (h : c₁.data.lookup key = c₂.data.lookup key) :
    c₁.Get codec now key v = c₂.Get codec now key v := by
  simp only [Cache.Get, h]

theorem Expired_congr_lookup {V : Type} (c₁ c₂ : Cache V) (now : Time) (key : String)
    (h : c₁.data.lookup key = c₂.data.lookup key) :
    c₁.Expired now key = c₂.Expired now key := by
  simp only [Cache.Expired, h]

theorem Get_of_marshal_none {V B O : Type} (codec : Codec V B O) (c : Cache V) (now : Time)
    (key : String) (v : O) (it : cacheItem V) (h : c.data.lookup key = some it)
    (hm : codec.Marshal it.Data = none) : (c.Get codec now key v).1 = false := by
  simp only [Cache.Get, h, hm]
  split_ifs <;> rfl

theorem Get_of_unmarshal_false {V B O : Type} (codec : Codec V B O) (c : Cache V)
    (now : Time) (key : String) (v : O) (it : cacheItem V) (b : B)
    (h : c.data.lookup key = some it) (hm : codec.Marshal it.Data = some b)
    (hu : (codec.Unmarshal b v).2 = false) : (c.Get codec now key v).1 = false := by
  simp only [Cache.Get, h, hm]
  split_ifs
  · rfl
  · rcases hx : codec.Unmarshal b v with ⟨v', ok⟩
    rw [hx] at hu
    simp only at hu
    subst hu
    rfl

theorem run_of_reads {V : Type} (ops : List (Time × Op V))
    (hreads : ∀ p ∈ ops, Op.isRead p.2 = true) : ∀ c : Cache V, c.run ops = c := by
  induction ops with
  | nil => intro c; rfl
  | cons hd tl ih =>
    intro c
    obtain ⟨now, op⟩ := hd
    have hhd : Op.isRead op = true := hreads (now, op) (List.mem_cons_self _ _)
    have hstep : c.step now op = c := by
      cases op <;> first | rfl | simp [Op.isRead] at hhd
    simp only [Cache.run, hstep]
    exact ih (fun p hp => hreads p (List.mem_cons_of_mem _ hp)) c

theorem step_lookup_of_not_mayRemove {V : Type} (c : Cache V) (now : Time) (op : Op V)
    (k : String) (hop : Op.mayRemove k op = false) :
    (c.step now op).data.lookup k = c.data.lookup k := by
  cases op with
  | Set key data ttl =>
    have hne : k ≠ key := by
      intro h
      simp [Op.mayRemove, h] at hop
    simp only [Cache.step, Cache.Set]
    exact Finmap.lookup_insert_of_ne _ hne
  | Get key => rfl
  | Delete key =>
    have hne : k ≠ key := by
      intro h
      simp [Op.mayRemove, h] at hop
    simp only [Cache.step, Cache.Delete]
    exact Finmap.lookup_erase_ne hne
  | Expired key => rfl
  | Cleanup => simp [Op.mayRemove] at hop

theorem run_lookup_of_not_mayRemove {V : Type} (k : String) (ops : List (Time × Op V))
    (hops : ∀ p ∈ ops, Op.mayRemove k p.2 = false) :
    ∀ c : Cache V, (c.run ops).data.lookup k = c.data.lookup k := by
  induction ops with
  | nil => intro c; rfl
  | cons hd tl ih =>
    intro c
    obtain ⟨now, op⟩ := hd
    simp only [Cache.run]
    rw [ih (fun p hp => hops p (List.mem_cons_of_mem _ hp)),
      step_lookup_of_not_mayRemove c now op k (hops (now, op) (List.mem_cons_self _ _))]

theorem Delete_of_lookup_none {V : Type} (c : Cache V) (k : String)
    (h : c.data.lookup k = none) : c.Delete k = c := by
  apply Cache.ext_lookup
  · intro k'
    simp only [Cache.Delete]
    by_cases hk : k' = k
    · subst hk; rw [Finmap.lookup_erase, h]
    · exact Finmap.lookup_erase_ne hk
  · rfl

theorem goMarshal_of_not_hasRef (h h' : Heap) :
    ∀ v : GoValue, v.hasRef = false → goMarshal h' v = goMarshal h v := by
  intro v
  induction v with
  | int n => intro _; rfl
  | str s => intro _; rfl
  | ptr addr => intro hv; simp [GoValue.hasRef] at hv
  | nil => intro _; rfl
  | chan => intro _; rfl
  | pair a b iha ihb =>
    intro hv
    simp only [GoValue.hasRef, Bool.or_eq_false_iff] at hv
    simp only [goMarshal, iha hv.1, ihb hv.2]

theorem run_append {V : Type} (l₁ l₂ : List (Time × Op V)) :
    ∀ c : Cache V, c.run (l₁ ++ l₂) = (c.run l₁).run l₂ := by
  induction l₁ with
  | nil => intro c; rfl
  | cons hd tl ih =>
    intro c
    obtain ⟨now, op⟩ := hd
    simp only [List.cons_append, Cache.run]
    exact ih _

theorem mem_pairCalls {V : Type} (p : String × V) (op : Op V) :
    op ∈ pairCalls p ↔ op = Op.Set p.1 p.2 [] ∨ op = Op.Get p.1 := by
  simp [pairCalls]

theorem pairCalls_nodup {V : Type} (pairs : List (String × V))
    (hkeys : (pairs.map Prod.fst).Nodup) : (pairs.flatMap pairCalls).Nodup := by
  rw [List.nodup_flatMap]
  constructor
  · intro x _
    simp [pairCalls]
  · have hpw : List.Pairwise (fun a b : String × V => a.1 ≠ b.1) pairs :=
      List.pairwise_map.mp hkeys
    refine hpw.imp ?_
    intro a b hab
    simp only [Function.onFun]
    intro op ha hb
    rw [mem_pairCalls] at ha hb
    rcases ha with ha | ha <;> rcases hb with hb | hb <;> rw [ha] at hb
    · injection hb with h1 _ _; exact hab h1
    · exact Op.noConfusion hb
    · exact Op.noConfusion hb
    · injection hb with h1; exact hab h1

theorem schedule_mid_not_mayRemove {V : Type} (pairs : List (String × V))
    (pre mid post : List (Time × Op V)) (k : String) (v : V) (t t' : Time)
    (hkeys : (pairs.map Prod.fst).Nodup)
    (hsched : (((pre ++ (t, Op.Set k v []) :: mid) ++ (t', Op.Get k) :: post).map
      Prod.snd).Perm (pairs.flatMap pairCalls)) :
    ∀ p ∈ mid, Op.mayRemove k p.2 = false := by
  have hnd : (((pre ++ (t, Op.Set k v []) :: mid) ++ (t', Op.Get k) :: post).map
      Prod.snd).Nodup := hsched.nodup_iff.mpr (pairCalls_nodup pairs hkeys)
  have hset : (Op.Set k v [] : Op V) ∈ pairs.flatMap pairCalls := by
    apply hsched.mem_iff.mp
    simp
  obtain ⟨q', hq', hq'c⟩ := List.mem_flatMap.mp hset
  rw [mem_pairCalls] at hq'c
  have hq'eq : q'.1 = k ∧ q'.2 = v := by
    rcases hq'c with h | h
    · injection h with h1 h2 _; exact ⟨h1.symm, h2.symm⟩
    · exact Op.noConfusion h
  have hnotmid : (Op.Set k v [] : Op V) ∉ mid.map Prod.snd := by
    simp only [List.map_append, List.map_cons, List.append_assoc] at hnd
    have h1 := (List.nodup_append.mp hnd).2.1
    rw [List.cons_append, List.nodup_cons] at h1
    intro hin
    exact h1.1 (List.mem_append_left _ hin)
  intro p hp
  have hpin : p.2 ∈ pairs.flatMap pairCalls := by
    apply hsched.mem_iff.mp
    simp only [List.map_append, List.map_cons, List.mem_append, List.mem_cons, List.mem_map]
    exact Or.inl (Or.inr (Or.inr ⟨p, hp, rfl⟩))
  obtain ⟨q, hq, hqc⟩ := List.mem_flatMap.mp hpin
  rw [mem_pairCalls] at hqc
  rcases hqc with h | h
  · rw [h]
    simp only [Op.mayRemove, decide_eq_false_iff_not]
    intro hk
    have hqq : q = q' :=
      List.inj_on_of_nodup_map hkeys hq hq' (hk.trans hq'eq.1.symm)
    apply hnotmid
    rw [List.mem_map]
    refine ⟨p, hp, ?_⟩
    rw [h, hqq, hq'eq.1, hq'eq.2]
  · rw [h]; rfl

/-! ## The claims -/

/-- C1 (round trip).  For every cache, key and value whose copy through the codec
succeeds and gives the value back, a `Set` at time `t` followed by a `Get` at a time
`t'` with `t ≤ t'` and `t'` not later than `t` plus the effective time to live returns
`true` and leaves the value in the target. -/
theorem set_get_roundtrip {V B : Type} (codec : Codec V B V) (c : Cache V) (k : String)
    (v out : V) (b : B) (ttl : List Duration) (t t' : Time)
    (hm : codec.Marshal v = some b) (hu : codec.Unmarshal b out = (v, true))
    (_hle : t ≤ t') (hlive : t' ≤ t + ttl.headD c.defaultTTL) :
    (c.Set t k v ttl).Get codec t' k out = (true, v) :=
  Get_of_live codec _ t' k out v _ b (Set_lookup_self c t k v ttl) hlive hm hu

theorem set_get_roundtrip_witness :
    copyCodec.Marshal "value" = some "value" ∧
    copyCodec.Unmarshal "value" "" = ("value", true) ∧
    (0 : Time) ≤ 5 ∧ (5 : Time) ≤ 0 + ([] : List Duration).headD (NewCache 10 : Cache String).defaultTTL ∧
    ((NewCache 10 : Cache String).Set 0 "key" "value" []).Get copyCodec 5 "key" ""
      = (true, "value") :=
  ⟨rfl, rfl, by decide, by decide,
    set_get_roundtrip copyCodec (NewCache 10) "key" "value" "" "value" [] 0 5 rfl rfl
      (by decide) (by decide)⟩

/-- C2 (expiration).  After a `Set` on `k` at time `t`, and any later calls none of
which is a `Set` on `k`, at every time `t'` past `t` plus the time to live used by that
`Set`, `Get` on `k` returns `false` and `Expired` on `k` returns `true`. -/
theorem expiration {V B O : Type} (codec : Codec V B O) (c : Cache V) (k : String) (v : V)
    (out : O) (ttl : List Duration) (t t' : Time) (ops : List (Time × Op V))
    (hno : ∀ p ∈ ops, Op.isSetOn k p.2 = false)
    (hpast : t + ttl.headD c.defaultTTL < t') :
    (((c.Set t k v ttl).run ops).Get codec t' k out).1 = false ∧
      ((c.Set t k v ttl).run ops).Expired t' k = true := by
  rcases run_lookup_of_not_set k ops hno (c.Set t k v ttl) with h | h
  · constructor
    · rw [Get_of_lookup_none codec _ t' k out h]
    · simp [Cache.Expired, h]
  · rw [Set_lookup_self] at h
    constructor
    · rw [Get_of_expired codec _ t' k out _ h hpast]
    · simp only [Cache.Expired, h]
      exact (After_eq_true_iff _ _).mpr hpast

theorem expiration_witness :
    (∀ p ∈ [((3 : Time), (Op.Cleanup : Op String)), (4, Op.Set "other" "w" []), (7, Op.Get "key")],
      Op.isSetOn "key" p.2 = false) ∧
    (0 : Time) + [(5 : Duration)].headD (NewCache 10 : Cache String).defaultTTL < 6 ∧
    ((((NewCache 10 : Cache String).Set 0 "key" "value" [5]).run
        [(3, Op.Cleanup), (4, Op.Set "other" "w" []), (7, Op.Get "key")]).Get
          copyCodec 6 "key" "").1 = false ∧
    (((NewCache 10 : Cache String).Set 0 "key" "value" [5]).run
        [(3, Op.Cleanup), (4, Op.Set "other" "w" []), (7, Op.Get "key")]).Expired 6 "key"
      = true :=
  ⟨by decide, by decide,
    expiration copyCodec (NewCache 10) "key" "value" "" [5] 0 6
      [(3, Op.Cleanup), (4, Op.Set "other" "w" []), (7, Op.Get "key")]
      (by decide) (by decide)⟩

/-- C3 (lazy expiration).  Whatever the store holds, swept or not, when `Get` on `k`
at time `now` returns `true` the key is present in the store and the expiry of its entry
is not before `now`. -/
theorem get_true_only_live {V B O : Type} (codec : Codec V B O) (c : Cache V) (now : Time)
    (k : String) (out : O) (h : (c.Get codec now k out).1 = true) :
    ∃ it, c.data.lookup k = some it ∧ now ≤ it.ExpiresAt := by
  cases hl : c.data.lookup k with
  | none => rw [Get_of_lookup_none codec c now k out hl] at h; simp at h
  | some it =>
    refine ⟨it, rfl, ?_⟩
    by_contra hlt
    rw [Get_of_expired codec c now k out it hl (not_le.mp hlt)] at h
    simp at h

theorem get_true_only_live_witness :
    (((NewCache 10 : Cache String).Set 0 "key" "value" []).Get copyCodec 10 "key" "").1 = true ∧
    ∃ it, ((NewCache 10 : Cache String).Set 0 "key" "value" []).data.lookup "key" = some it ∧
      (10 : Time) ≤ it.ExpiresAt :=
  ⟨by decide,
    get_true_only_live copyCodec ((NewCache 10 : Cache String).Set 0 "key" "value" []) 10
      "key" "" (by decide)⟩

/-- C4 (cleanup safety).  The store after `Cleanup` at time `now` is the store
restricted to the entries with `now ≤ ExpiresAt`: a key looks up to its former entry,
unchanged, when that entry is live at `now`, and to nothing otherwise; the default time
to live is unchanged. -/
theorem cleanup_is_restriction {V : Type} (c : Cache V) (now : Time) :
    (∀ k, (c.Cleanup now).data.lookup k
        = (c.data.lookup k).filter (fun it => decide (now ≤ it.ExpiresAt))) ∧
      (c.Cleanup now).defaultTTL = c.defaultTTL := by
  refine ⟨fun k => ?_, rfl⟩
  rw [Cleanup_lookup]
  congr 1
  funext it
  by_cases h : now ≤ it.ExpiresAt
  · simp [Time.After, h, not_lt.mpr h]
  · simp [Time.After, h, not_le.mp h]

/-- C5 (the predicate `Expired`).  `Expired` on `k` at time `now` returns `true` exactly
when `k` is absent or `now` is past the expiry of its entry, and `false` exactly when `k`
is present with `now ≤ ExpiresAt`; at `now = ExpiresAt` the entry is still live. -/
theorem expired_iff {V : Type} (c : Cache V) (now : Time) (k : String) :
    (c.Expired now k = true ↔
        (c.data.lookup k = none ∨ ∃ it, c.data.lookup k = some it ∧ it.ExpiresAt < now)) ∧
      (c.Expired now k = false ↔ ∃ it, c.data.lookup k = some it ∧ now ≤ it.ExpiresAt) := by
  cases hl : c.data.lookup k with
  | none => simp [Cache.Expired, hl]
  | some it => simp [Cache.Expired, hl, Time.After]

/-- C6 (expiry of a stored entry).  The entry stored by `Set` at time `t` holds the
value and has `ExpiresAt = t + d`, where `d` is the first of the passed durations when at
least one is passed and the default of the cache otherwise; and the default of a cache
built by `NewCache d` is still `d` after any sequence of calls. -/
theorem set_expires_at {V : Type} (c : Cache V) (t : Time) (k : String) (v : V)
    (d : Duration) (ops : List (Time × Op V)) :
    (c.Set t k v []).data.lookup k = some { Data := v, ExpiresAt := t + c.defaultTTL } ∧
      (∀ (x : Duration) (rest : List Duration),
        (c.Set t k v (x :: rest)).data.lookup k = some { Data := v, ExpiresAt := t + x }) ∧
      ((NewCache d : Cache V).run ops).defaultTTL = d := by
  refine ⟨?_, fun x rest => ?_, ?_⟩
  · simp [Cache.Set, Cache.duration, Time.Add, Finmap.lookup_insert]
  · simp [Cache.Set, Cache.duration, Time.Add, Finmap.lookup_insert]
  · rw [run_defaultTTL]; rfl

/-- C7, as the code has it (overwrite).  Two consecutive calls of `Set` on the same key,
with any values and any durations, leave exactly the cache that the second call alone
would have left: the entry of the key holds the second value and the expiry computed from
the time and the duration of the second call.  A `Get` on the key within the time to live
of the second call, when the copy of the second value through the codec succeeds and
gives the value back, returns `true` with the second value. -/
theorem overwrite_last_wins {V B : Type} (codec : Codec V B V) (c : Cache V) (k : String)
    (v₁ v₂ : V) (ttl₁ ttl₂ : List Duration) (t₁ t₂ : Time) :
    (c.Set t₁ k v₁ ttl₁).Set t₂ k v₂ ttl₂ = c.Set t₂ k v₂ ttl₂ ∧
      ((c.Set t₁ k v₁ ttl₁).Set t₂ k v₂ ttl₂).data.lookup k
        = some { Data := v₂, ExpiresAt := t₂ + ttl₂.headD c.defaultTTL } ∧
      (∀ (t' : Time) (out : V) (b : B),
        codec.Marshal v₂ = some b → codec.Unmarshal b out = (v₂, true) →
        t₂ ≤ t' → t' ≤ t₂ + ttl₂.headD c.defaultTTL →
        ((c.Set t₁ k v₁ ttl₁).Set t₂ k v₂ ttl₂).Get codec t' k out = (true, v₂)) := by
  have heq : (c.Set t₁ k v₁ ttl₁).Set t₂ k v₂ ttl₂ = c.Set t₂ k v₂ ttl₂ := by
    simp only [Cache.Set, Cache.duration, Finmap.insert_insert]
  refine ⟨heq, ?_, ?_⟩
  · rw [heq]; exact Set_lookup_self c t₂ k v₂ ttl₂
  · intro t' out b hm hu _ hlive
    rw [heq]
    exact Get_of_live codec _ t' k out v₂ _ b (Set_lookup_self c t₂ k v₂ ttl₂) hlive hm hu

theorem overwrite_last_wins_witness :
    (((NewCache 10 : Cache String).Set 0 "key" "first" [100]).Set 3 "key" "second" [-5]
        = (NewCache 10 : Cache String).Set 3 "key" "second" [-5]) ∧
    (((NewCache 10 : Cache String).Set 0 "key" "first" [100]).Set 3 "key" "second" [4]
        = (NewCache 10 : Cache String).Set 3 "key" "second" [4]) ∧
    (((NewCache 10 : Cache String).Set 0 "key" "first" [100]).Set 3 "key" "second" [4]).Get
      copyCodec 7 "key" "" = (true, "second") :=
  ⟨(overwrite_last_wins copyCodec (NewCache 10) "key" "first" "second" [100] [-5] 0 3).1,
    (overwrite_last_wins copyCodec (NewCache 10) "key" "first" "second" [100] [4] 0 3).1,
    (overwrite_last_wins copyCodec (NewCache 10) "key" "first" "second" [100] [4] 0 3).2.2
      7 "" "second" rfl rfl (by decide) (by decide)⟩

/-- C7, as stated, fails for a value that the codec cannot copy: after `Set` of an integer
and then `Set` of a channel on the same key, a `Get` within the time to live of the second
call, while the entry is not expired, returns `false` and leaves the target as it was; and
when the second value is a nil pointer the `Get` returns `true` and leaves the target as it
was. -/
theorem overwrite_get_counterexample :
    (2 : Time) ≤ 1 + ([] : List Duration).headD (NewCache 10 : Cache GoValue).defaultTTL ∧
    (((NewCache 10 : Cache GoValue).Set 0 "key" (GoValue.int 1) []).Set 1 "key"
        GoValue.chan []).Expired 2 "key" = false ∧
    (((NewCache 10 : Cache GoValue).Set 0 "key" (GoValue.int 1) []).Set 1 "key"
        GoValue.chan []).Get (goCodec (fun _ => 0)) 2 "key" (Plain.int 7)
      = (false, Plain.int 7) ∧
    (((NewCache 10 : Cache GoValue).Set 0 "key" (GoValue.int 1) []).Set 1 "key"
        GoValue.nil []).Get (goCodec (fun _ => 0)) 2 "key" (Plain.int 7)
      = (true, Plain.int 7) := by
  decide

/-- C8 (absence).  On a cache built by `NewCache` and then used by calls none of which
is a `Set` on `k` (in particular on the fresh cache), and on any cache right after
`Delete` on `k`, whatever entry `k` had, `Get` on `k` returns `false` and `Expired` on `k`
returns `true`, at every time. -/
theorem absence {V B O : Type} (codec : Codec V B O) (d : Duration)
    (ops : List (Time × Op V)) (c : Cache V) (k : String) (now : Time) (out : O)
    (hno : ∀ p ∈ ops, Op.isSetOn k p.2 = false) :
    ((((NewCache d : Cache V).run ops).Get codec now k out).1 = false ∧
        ((NewCache d : Cache V).run ops).Expired now k = true) ∧
      (((c.Delete k).Get codec now k out).1 = false ∧ (c.Delete k).Expired now k = true) := by
  have hfresh : ((NewCache d : Cache V).run ops).data.lookup k = none := by
    rcases run_lookup_of_not_set k ops hno (NewCache d : Cache V) with h | h
    · exact h
    · rw [h]; exact Finmap.lookup_empty k
  have hdel : (c.Delete k).data.lookup k = none := by
    simp only [Cache.Delete]
    exact Finmap.lookup_erase k c.data
  refine ⟨⟨?_, ?_⟩, ⟨?_, ?_⟩⟩
  · rw [Get_of_lookup_none codec _ now k out hfresh]
  · simp [Cache.Expired, hfresh]
  · rw [Get_of_lookup_none codec _ now k out hdel]
  · simp [Cache.Expired, hdel]

theorem absence_witness :
    (∀ p ∈ [((1 : Time), (Op.Set "other" "w" [] : Op String)), (2, Op.Delete "key")],
      Op.isSetOn "key" p.2 = false) ∧
    (((((NewCache 10 : Cache String).run
          [(1, Op.Set "other" "w" []), (2, Op.Delete "key")]).Get copyCodec 3 "key" "").1
        = false ∧
      ((NewCache 10 : Cache String).run
          [(1, Op.Set "other" "w" []), (2, Op.Delete "key")]).Expired 3 "key" = true) ∧
    (((((NewCache 10 : Cache String).Set 0 "key" "value" []).Delete "key").Get
          copyCodec 3 "key" "").1 = false ∧
      (((NewCache 10 : Cache String).Set 0 "key" "value" []).Delete "key").Expired 3 "key"
        = true)) :=
  ⟨by decide,
    absence copyCodec 10 [(1, Op.Set "other" "w" []), (2, Op.Delete "key")]
      ((NewCache 10 : Cache String).Set 0 "key" "value" []) "key" 3 "" (by decide)⟩

/-- C9 (idempotence of `Delete`).  Deleting a key twice in a row leaves the same cache
as deleting it once; `Delete` is a total function and has no failure result. -/
theorem delete_idempotent {V : Type} (c : Cache V) (k : String) :
    (c.Delete k).Delete k = c.Delete k := by
  apply Cache.ext_lookup
  · intro k'
    simp only [Cache.Delete]
    by_cases h : k' = k
    · subst h; rw [Finmap.lookup_erase, Finmap.lookup_erase]
    · rw [Finmap.lookup_erase_ne h]
  · rfl

/-- C10 (idempotence of `Cleanup`).  A `Cleanup` at time `now` followed by a second
`Cleanup` at the same or an earlier time leaves the same cache as the first alone. -/
theorem cleanup_idempotent {V : Type} (c : Cache V) (now now' : Time) (h : now' ≤ now) :
    (c.Cleanup now).Cleanup now' = c.Cleanup now := by
  apply Cache.ext_lookup
  · intro k
    rw [Cleanup_lookup, Cleanup_lookup]
    cases c.data.lookup k with
    | none => rfl
    | some it =>
      by_cases hexp : it.ExpiresAt < now
      · simp [Option.filter, Time.After, hexp]
      · have hlive : ¬ it.ExpiresAt < now' := not_lt.mpr (le_trans h (not_lt.mp hexp))
        simp [Option.filter, Time.After, hexp, hlive]
  · rfl

theorem cleanup_idempotent_witness :
    (6 : Time) ≤ 6 ∧
    ((((NewCache 10 : Cache String).Set 0 "key" "value" [4]).Set 0 "b" "x" []).Cleanup
        6).Cleanup 6
      = (((NewCache 10 : Cache String).Set 0 "key" "value" [4]).Set 0 "b" "x" []).Cleanup 6 :=
  ⟨by decide,
    cleanup_idempotent
      (((NewCache 10 : Cache String).Set 0 "key" "value" [4]).Set 0 "b" "x" []) 6 6
      (by decide)⟩

/-- C11 (shape mismatch).  For a key with a live entry, when the copy of the stored
value into the target fails, on the encoding side or on the decoding side, `Get` returns
`false` (it is a total function: there is no other outcome) and the call leaves the cache
as it was. -/
theorem get_mismatch_is_false {V B O : Type} (codec : Codec V B O) (c : Cache V)
    (now : Time) (k : String) (out : O) (it : cacheItem V)
    (hl : c.data.lookup k = some it) (_hlive : now ≤ it.ExpiresAt)
    (hfail : codec.Marshal it.Data = none ∨
      ∃ b, codec.Marshal it.Data = some b ∧ (codec.Unmarshal b out).2 = false) :
    (c.Get codec now k out).1 = false ∧ c.step now (Op.Get k) = c := by
  refine ⟨?_, rfl⟩
  rcases hfail with hm | ⟨b, hm, hu⟩
  · exact Get_of_marshal_none codec c now k out it hl hm
  · exact Get_of_unmarshal_false codec c now k out it b hl hm hu

theorem get_mismatch_is_false_witness :
    ((NewCache 10 : Cache GoValue).Set 0 "key" (GoValue.str "value") []).data.lookup "key"
      = some { Data := GoValue.str "value", ExpiresAt := 10 } ∧
    (5 : Time) ≤ (10 : Time) ∧
    ((goCodec (fun _ => 0)).Marshal (GoValue.str "value") = none ∨
      ∃ b, (goCodec (fun _ => 0)).Marshal (GoValue.str "value") = some b ∧
        ((goCodec (fun _ => 0)).Unmarshal b (Plain.int 7)).2 = false) ∧
    ((((NewCache 10 : Cache GoValue).Set 0 "key" (GoValue.str "value") []).Get
        (goCodec (fun _ => 0)) 5 "key" (Plain.int 7)).1 = false ∧
      ((NewCache 10 : Cache GoValue).Set 0 "key" (GoValue.str "value") []).step 5
          (Op.Get "key")
        = (NewCache 10 : Cache GoValue).Set 0 "key" (GoValue.str "value") []) :=
  ⟨by decide, by decide, Or.inr ⟨Encoded.str "value", rfl, rfl⟩,
    get_mismatch_is_false (goCodec (fun _ => 0))
      ((NewCache 10 : Cache GoValue).Set 0 "key" (GoValue.str "value") []) 5 "key"
      (Plain.int 7) { Data := GoValue.str "value", ExpiresAt := 10 } (by decide) (by decide)
      (Or.inr ⟨Encoded.str "value", rfl, rfl⟩)⟩

/-- C12, as the code has it (non-positive time to live).  `Set` with a first duration
`ttl ≤ 0` stores the entry with `ExpiresAt = t + ttl` without any check.  After it, and
after any later calls none of which is a `Set` on `k`, `Expired` on `k` returns `true`
and `Get` on `k` returns `false` at every time `t' ≥ t` when `ttl` is negative, and at
every time `t' > t` when `ttl` is zero.  When `ttl` is zero the entry is still live at
the reading `t` of the clock at which `Set` was called: there `Expired` returns `false`,
and `Get` returns `true` when the copy through the codec succeeds. -/
theorem nonpositive_ttl_expired {V B O : Type} (codec : Codec V B O) (c : Cache V)
    (k : String) (v : V) (out : O) (ttl : Duration) (rest : List Duration) (t : Time)
    (hnonpos : ttl ≤ 0) :
    (c.Set t k v (ttl :: rest)).data.lookup k = some { Data := v, ExpiresAt := t + ttl } ∧
      (∀ (t' : Time) (ops : List (Time × Op V)),
        (∀ p ∈ ops, Op.isSetOn k p.2 = false) → t ≤ t' → (ttl < 0 ∨ t < t') →
        ((c.Set t k v (ttl :: rest)).run ops).Expired t' k = true ∧
          (((c.Set t k v (ttl :: rest)).run ops).Get codec t' k out).1 = false) ∧
      (ttl = 0 →
        (c.Set t k v (ttl :: rest)).Expired t k = false ∧
          ∀ (b : B) (w : O), codec.Marshal v = some b → codec.Unmarshal b out = (w, true) →
            (c.Set t k v (ttl :: rest)).Get codec t k out = (true, w)) := by
  have hstored : (c.Set t k v (ttl :: rest)).data.lookup k
      = some { Data := v, ExpiresAt := t + ttl } := Set_lookup_self c t k v (ttl :: rest)
  refine ⟨hstored, ?_, ?_⟩
  · intro t' ops hno hle hstrict
    have hpast : t + ttl < t' := by
      rcases hstrict with h | h
      · exact lt_of_lt_of_le (by linarith) hle
      · exact lt_of_le_of_lt (by linarith) h
    rcases run_lookup_of_not_set k ops hno (c.Set t k v (ttl :: rest)) with h | h
    · constructor
      · simp [Cache.Expired, h]
      · rw [Get_of_lookup_none codec _ t' k out h]
    · rw [hstored] at h
      constructor
      · simp only [Cache.Expired, h]
        exact (After_eq_true_iff _ _).mpr hpast
      · rw [Get_of_expired codec _ t' k out _ h hpast]
  · intro hzero
    have hlive : t ≤ t + ttl := by rw [hzero]; simp
    constructor
    · simp only [Cache.Expired, hstored]
      exact (After_eq_false_iff _ _).mpr hlive
    · intro b w hm hu
      exact Get_of_live codec _ t k out w _ b hstored hlive hm hu

theorem nonpositive_ttl_expired_witness :
    (0 : Duration) ≤ 0 ∧
    ((((NewCache 10 : Cache String).Set 5 "key" "value" [0]).run
          [(6, Op.Cleanup)]).Expired 6 "key" = true ∧
      ((((NewCache 10 : Cache String).Set 5 "key" "value" [0]).run
          [(6, Op.Cleanup)]).Get copyCodec 6 "key" "").1 = false) ∧
    (((NewCache 10 : Cache String).Set 5 "key" "value" [0]).Expired 5 "key" = false ∧
      ((NewCache 10 : Cache String).Set 5 "key" "value" [0]).Get copyCodec 5 "key" ""
        = (true, "value")) :=
  ⟨by decide,
    (nonpositive_ttl_expired copyCodec (NewCache 10) "key" "value" "" 0 [] 5
      (by decide)).2.1 6 [(6, Op.Cleanup)] (by decide) (by decide) (Or.inr (by decide)),
    ((nonpositive_ttl_expired copyCodec (NewCache 10) "key" "value" "" 0 [] 5
      (by decide)).2.2 rfl).1,
    ((nonpositive_ttl_expired copyCodec (NewCache 10) "key" "value" "" 0 [] 5
      (by decide)).2.2 rfl).2 "value" "value" rfl rfl⟩

/-- C12, as stated, fails: after `Set` with a time to live of zero at time `0`, at that
same reading of the clock `Expired` returns `false` and `Get` returns `true`. -/
theorem nonpositive_ttl_counterexample :
    (0 : Duration) ≤ 0 ∧
    ((NewCache 10 : Cache String).Set 0 "key" "value" [0]).Expired 0 "key" = false ∧
    ((NewCache 10 : Cache String).Set 0 "key" "value" [0]).Get copyCodec 0 "key" ""
      = (true, "value") := by
  decide

/-- C13 (one-way transition).  On one and the same store, when `Expired` on `k` is
`true` at time `t` it is `true` at every time `t' ≥ t`, and `Get` on `k` is `false`
there. -/
theorem expired_stays_expired {V B O : Type} (codec : Codec V B O) (c : Cache V)
    (k : String) (out : O) (t t' : Time) (hle : t ≤ t') (hexp : c.Expired t k = true) :
    c.Expired t' k = true ∧ (c.Get codec t' k out).1 = false := by
  cases hl : c.data.lookup k with
  | none =>
    constructor
    · simp [Cache.Expired, hl]
    · rw [Get_of_lookup_none codec c t' k out hl]
  | some it =>
    simp only [Cache.Expired, hl] at hexp
    have hpast : it.ExpiresAt < t' := lt_of_lt_of_le ((After_eq_true_iff _ _).mp hexp) hle
    constructor
    · simp only [Cache.Expired, hl]
      exact (After_eq_true_iff _ _).mpr hpast
    · rw [Get_of_expired codec c t' k out it hl hpast]

theorem expired_stays_expired_witness :
    (11 : Time) ≤ 20 ∧
    ((NewCache 10 : Cache String).Set 0 "key" "value" []).Expired 11 "key" = true ∧
    (((NewCache 10 : Cache String).Set 0 "key" "value" []).Expired 20 "key" = true ∧
      (((NewCache 10 : Cache String).Set 0 "key" "value" []).Get copyCodec 20 "key" "").1
        = false) :=
  ⟨by decide, by decide,
    expired_stays_expired copyCodec ((NewCache 10 : Cache String).Set 0 "key" "value" [])
      "key" "" 11 20 (by decide) (by decide)⟩

/-- C14, as the code has it (what `Set` keeps).  `Set` stores the value it is given as
it is, and the copy is made by `Get` when it reads.  For a value that neither is nor
contains a reference, a change of the memory of the caller after `Set` (from `h` to `h'`)
does not change what a later `Get` returns into any target, also after calls that leave
the entry in place.  For a pointer, a `Get` within the time to live returns the content
that the variable pointed to has at the time of the `Get`. -/
theorem set_value_semantics (c : Cache GoValue) (k : String) (ttl : List Duration)
    (t t' : Time) (h h' : Heap) :
    (∀ v : GoValue, (c.Set t k v ttl).data.lookup k
        = some { Data := v, ExpiresAt := t + ttl.headD c.defaultTTL }) ∧
      (∀ (v : GoValue) (out : Plain) (mid : List (Time × Op GoValue)),
        (∀ p ∈ mid, Op.mayRemove k p.2 = false) → v.hasRef = false →
        ((c.Set t k v ttl).run mid).Get (goCodec h') t' k out
          = ((c.Set t k v ttl).run mid).Get (goCodec h) t' k out) ∧
      (∀ (addr : Nat) (m : Int) (mid : List (Time × Op GoValue)),
        (∀ p ∈ mid, Op.mayRemove k p.2 = false) →
        t' ≤ t + ttl.headD c.defaultTTL → inInt64 (h' addr) = true →
        ((c.Set t k (GoValue.ptr addr) ttl).run mid).Get (goCodec h') t' k (Plain.int m)
          = (true, Plain.int (h' addr))) := by
  refine ⟨fun v => Set_lookup_self c t k v ttl, ?_, ?_⟩
  · intro v out mid hmid hval
    have hl : ((c.Set t k v ttl).run mid).data.lookup k
        = some { Data := v, ExpiresAt := t + ttl.headD c.defaultTTL } := by
      rw [run_lookup_of_not_mayRemove k mid hmid, Set_lookup_self]
    have hm : (goCodec h').Marshal v = (goCodec h).Marshal v :=
      goMarshal_of_not_hasRef h h' v hval
    simp only [Cache.Get, hl, hm]
    rfl
  · intro addr m mid hmid hlive hfit
    have hl : ((c.Set t k (GoValue.ptr addr) ttl).run mid).data.lookup k
        = some { Data := GoValue.ptr addr, ExpiresAt := t + ttl.headD c.defaultTTL } := by
      rw [run_lookup_of_not_mayRemove k mid hmid, Set_lookup_self]
    refine Get_of_live (goCodec h') _ t' k (Plain.int m) (Plain.int (h' addr)) _
      (Encoded.num (h' addr)) hl hlive rfl ?_
    simp [goCodec, goUnmarshal, hfit]

theorem set_value_semantics_witness :
    ((((NewCache 10 : Cache GoValue).Set 0 "key"
          (GoValue.pair (GoValue.int 10) (GoValue.str "a")) []).run
        [(1, Op.Get "key"), (1, Op.Set "other" GoValue.nil [])]).Get
        (goCodec (fun _ => 20)) 2 "key" (Plain.pair (Plain.int 0) (Plain.str ""))
      = (((NewCache 10 : Cache GoValue).Set 0 "key"
          (GoValue.pair (GoValue.int 10) (GoValue.str "a")) []).run
        [(1, Op.Get "key"), (1, Op.Set "other" GoValue.nil [])]).Get
        (goCodec (fun _ => 10)) 2 "key" (Plain.pair (Plain.int 0) (Plain.str ""))) ∧
    (((NewCache 10 : Cache GoValue).Set 0 "key" (GoValue.ptr 0) []).run
        [(1, Op.Get "key"), (1, Op.Set "other" GoValue.nil [])]).Get
        (goCodec (fun _ => 20)) 2 "key" (Plain.int 0)
      = (true, Plain.int 20) :=
  ⟨(set_value_semantics (NewCache 10) "key" [] 0 2 (fun _ => 10) (fun _ => 20)).2.1
      (GoValue.pair (GoValue.int 10) (GoValue.str "a"))
      (Plain.pair (Plain.int 0) (Plain.str ""))
      [(1, Op.Get "key"), (1, Op.Set "other" GoValue.nil [])] (by decide) (by decide),
    (set_value_semantics (NewCache 10) "key" [] 0 2 (fun _ => 10) (fun _ => 20)).2.2
      0 0 [(1, Op.Get "key"), (1, Op.Set "other" GoValue.nil [])] (by decide) (by decide)
      (by decide)⟩

/-- C14, as stated, fails for a pointer: after `Set` of a pointer to a variable holding
`10`, a `Get` made once the caller has assigned `20` to that variable returns `20`, where
the same `Get` without the assignment returns `10`. -/
theorem set_keeps_reference_counterexample :
    (GoValue.ptr 0).hasRef = true ∧
    ((NewCache 10 : Cache GoValue).Set 0 "key" (GoValue.ptr 0) []).Get
        (goCodec (fun _ => 10)) 1 "key" (Plain.int 0) = (true, Plain.int 10) ∧
    ((NewCache 10 : Cache GoValue).Set 0 "key" (GoValue.ptr 0) []).Get
        (goCodec (fun _ => 20)) 1 "key" (Plain.int 0) = (true, Plain.int 20) ∧
    ((NewCache 10 : Cache GoValue).Set 0 "key" (GoValue.ptr 0) []).Get
        (goCodec (fun _ => 20)) 1 "key" (Plain.int 0)
      ≠ ((NewCache 10 : Cache GoValue).Set 0 "key" (GoValue.ptr 0) []).Get
        (goCodec (fun _ => 10)) 1 "key" (Plain.int 0) := by
  decide

/-- C15, as the code has it (isolation of concurrent pairs).  Every method holds the lock
of the cache for its whole body, so an execution of `N` goroutines, each calling `Set` and
then `Get` on its own key, is a sequence of calls: any arrangement of the `2 N` calls, at
any times, in which each `Get` comes after the `Set` of its pair.  For pairwise distinct
keys, in every such sequence and for every pair, the entry that the `Get` finds is the one
its own `Set` stored; the `Get` returns `true` with its own value when it is made no later
than the time of its `Set` plus the default time to live and the copy of the value through
the codec succeeds and gives the value back. -/
theorem concurrent_isolation {V B : Type} (codec : Codec V B V) (c₀ : Cache V)
    (pairs : List (String × V)) (pre mid post : List (Time × Op V)) (k : String) (v : V)
    (t t' : Time) (hkeys : (pairs.map Prod.fst).Nodup)
    (hsched : (((pre ++ (t, Op.Set k v []) :: mid) ++ (t', Op.Get k) :: post).map
      Prod.snd).Perm (pairs.flatMap pairCalls)) :
    (c₀.run (pre ++ (t, Op.Set k v []) :: mid)).data.lookup k
        = some { Data := v, ExpiresAt := t + c₀.defaultTTL } ∧
      (∀ (out : V) (b : B), codec.Marshal v = some b → codec.Unmarshal b out = (v, true) →
        t' ≤ t + c₀.defaultTTL →
        (c₀.run (pre ++ (t, Op.Set k v []) :: mid)).Get codec t' k out = (true, v)) := by
  have hmid := schedule_mid_not_mayRemove pairs pre mid post k v t t' hkeys hsched
  have hl : (c₀.run (pre ++ (t, Op.Set k v []) :: mid)).data.lookup k
      = some { Data := v, ExpiresAt := t + c₀.defaultTTL } := by
    rw [run_append]
    simp only [Cache.run, Cache.step]
    rw [run_lookup_of_not_mayRemove k mid hmid, Set_lookup_self, run_defaultTTL]
    rfl
  refine ⟨hl, ?_⟩
  intro out b hm hu hlive
  exact Get_of_live codec _ t' k out v _ b hl hlive hm hu

theorem concurrent_isolation_witness :
    ([("key-0", "value-0"), ("key-1", "value-1")].map Prod.fst).Nodup ∧
    (((([] : List (Time × Op String)) ++ (0, Op.Set "key-0" "value-0" []) ::
          [(1, Op.Set "key-1" "value-1" []), (2, Op.Get "key-1")]) ++
        (3, Op.Get "key-0") :: []).map Prod.snd).Perm
      ([("key-0", "value-0"), ("key-1", "value-1")].flatMap pairCalls) ∧
    ((NewCache 10 : Cache String).run
        ([] ++ (0, Op.Set "key-0" "value-0" []) ::
          [(1, Op.Set "key-1" "value-1" []), (2, Op.Get "key-1")])).data.lookup "key-0"
      = some { Data := "value-0", ExpiresAt := 0 + (NewCache 10 : Cache String).defaultTTL } ∧
    ((NewCache 10 : Cache String).run
        ([] ++ (0, Op.Set "key-0" "value-0" []) ::
          [(1, Op.Set "key-1" "value-1" []), (2, Op.Get "key-1")])).Get
        copyCodec 3 "key-0" "" = (true, "value-0") :=
  ⟨by decide,
    List.Perm.cons _ (((List.Perm.swap _ _ _).cons _).trans (List.Perm.swap _ _ _)),
    (concurrent_isolation copyCodec (NewCache 10)
      [("key-0", "value-0"), ("key-1", "value-1")] []
      [(1, Op.Set "key-1" "value-1" []), (2, Op.Get "key-1")] [] "key-0" "value-0" 0 3
      (by decide)
      (List.Perm.cons _ (((List.Perm.swap _ _ _).cons _).trans (List.Perm.swap _ _ _)))).1,
    (concurrent_isolation copyCodec (NewCache 10)
      [("key-0", "value-0"), ("key-1", "value-1")] []
      [(1, Op.Set "key-1" "value-1" []), (2, Op.Get "key-1")] [] "key-0" "value-0" 0 3
      (by decide)
      (List.Perm.cons _ (((List.Perm.swap _ _ _).cons _).trans (List.Perm.swap _ _ _)))).2
      "" "value-0" rfl rfl (by decide)⟩

/-- C15, as stated, fails.  With a single pair whose value is a channel, the sequence `Set`
then `Get` ends with `Get` returning `false`; and with a string value on a cache with a
default time to live of `10`, a `Get` that is scheduled at time `11` after its `Set` at
time `0` returns `false`. -/
theorem concurrent_pairs_counterexample :
    ([((0 : Time), (Op.Set "key-0" GoValue.chan [] : Op GoValue)), (1, Op.Get "key-0")].map
        Prod.snd = [("key-0", GoValue.chan)].flatMap pairCalls) ∧
    ((NewCache 10 : Cache GoValue).run [(0, Op.Set "key-0" GoValue.chan [])]).Get
        (goCodec (fun _ => 0)) 1 "key-0" (Plain.int 0) = (false, Plain.int 0) ∧
    ([((0 : Time), (Op.Set "key-0" "value-0" [] : Op String)), (11, Op.Get "key-0")].map
        Prod.snd = [("key-0", "value-0")].flatMap pairCalls) ∧
    ((NewCache 10 : Cache String).run [(0, Op.Set "key-0" "value-0" [])]).Get
        copyCodec 11 "key-0" "" = (false, "") :=
  ⟨rfl, by decide, rfl, by decide⟩

/-- C16 (the sweep is not observable).  For a `Cleanup` at time `now` and a read at a
time `t' ≥ now`, `Get` and `Expired` on any key return the same results, the content of
the target included, on the cache after the `Cleanup` as on the cache without it. -/
theorem cleanup_transparent {V B O : Type} (codec : Codec V B O) (c : Cache V)
    (now t' : Time) (k : String) (out : O) (hle : now ≤ t') :
    (c.Cleanup now).Get codec t' k out = c.Get codec t' k out ∧
      (c.Cleanup now).Expired t' k = c.Expired t' k := by
  have hlook := Cleanup_lookup c now k
  cases hl : c.data.lookup k with
  | none =>
    rw [hl] at hlook
    have hnone : (c.Cleanup now).data.lookup k = none := by simpa [Option.filter] using hlook
    exact ⟨Get_congr_lookup codec _ c t' k out (hnone.trans hl.symm),
      Expired_congr_lookup _ c t' k (hnone.trans hl.symm)⟩
  | some it =>
    rw [hl] at hlook
    by_cases hexp : it.ExpiresAt < now
    · have hnone : (c.Cleanup now).data.lookup k = none := by
        simpa [Option.filter, Time.After, hexp] using hlook
      have hpast : it.ExpiresAt < t' := lt_of_lt_of_le hexp hle
      constructor
      · rw [Get_of_lookup_none codec _ t' k out hnone, Get_of_expired codec c t' k out it hl hpast]
      · simp only [Cache.Expired, hnone, hl]
        exact ((After_eq_true_iff _ _).mpr hpast).symm
    · have hsome : (c.Cleanup now).data.lookup k = some it := by
        simpa [Option.filter, Time.After, hexp] using hlook
      exact ⟨Get_congr_lookup codec _ c t' k out (hsome.trans hl.symm),
        Expired_congr_lookup _ c t' k (hsome.trans hl.symm)⟩

theorem cleanup_transparent_witness :
    (6 : Time) ≤ 7 ∧
    ((((NewCache 10 : Cache String).Set 0 "key" "value" [4]).Cleanup 6).Get
          copyCodec 7 "key" ""
        = ((NewCache 10 : Cache String).Set 0 "key" "value" [4]).Get copyCodec 7 "key" "" ∧
      (((NewCache 10 : Cache String).Set 0 "key" "value" [4]).Cleanup 6).Expired 7 "key"
        = ((NewCache 10 : Cache String).Set 0 "key" "value" [4]).Expired 7 "key") :=
  ⟨by decide,
    cleanup_transparent copyCodec ((NewCache 10 : Cache String).Set 0 "key" "value" [4])
      6 7 "key" "" (by decide)⟩

/-- C17 (key isolation).  For keys `k ≠ k'`, `Set` on `k` and `Delete` on `k` leave the
entry of `k'` as it was (present or not, value and expiry), so `Get` and `Expired` on `k'`
return the same results before and after; and `Delete` on a key that is absent leaves the
whole cache as it was. -/
theorem key_isolation {V B O : Type} (codec : Codec V B O) (c : Cache V) (k k' : String)
    (v : V) (ttl : List Duration) (t now : Time) (out : O) (hne : k ≠ k') :
    ((c.Set t k v ttl).data.lookup k' = c.data.lookup k' ∧
        (c.Set t k v ttl).Get codec now k' out = c.Get codec now k' out ∧
        (c.Set t k v ttl).Expired now k' = c.Expired now k') ∧
      ((c.Delete k).data.lookup k' = c.data.lookup k' ∧
        (c.Delete k).Get codec now k' out = c.Get codec now k' out ∧
        (c.Delete k).Expired now k' = c.Expired now k') ∧
      (c.data.lookup k = none → c.Delete k = c) := by
  have hset : (c.Set t k v ttl).data.lookup k' = c.data.lookup k' := by
    simp only [Cache.Set]
    exact Finmap.lookup_insert_of_ne _ (Ne.symm hne)
  have hdel : (c.Delete k).data.lookup k' = c.data.lookup k' := by
    simp only [Cache.Delete]
    exact Finmap.lookup_erase_ne (Ne.symm hne)
  exact ⟨⟨hset, Get_congr_lookup codec _ c now k' out hset,
      Expired_congr_lookup _ c now k' hset⟩,
    ⟨hdel, Get_congr_lookup codec _ c now k' out hdel, Expired_congr_lookup _ c now k' hdel⟩,
    Delete_of_lookup_none c k⟩

theorem key_isolation_witness :
    "key" ≠ "other" ∧
    (((((NewCache 10 : Cache String).Set 0 "other" "w" []).Set 1 "key" "value" [3]).data.lookup
          "other" = ((NewCache 10 : Cache String).Set 0 "other" "w" []).data.lookup "other" ∧
        (((NewCache 10 : Cache String).Set 0 "other" "w" []).Set 1 "key" "value" [3]).Get
            copyCodec 2 "other" ""
          = ((NewCache 10 : Cache String).Set 0 "other" "w" []).Get copyCodec 2 "other" "" ∧
        (((NewCache 10 : Cache String).Set 0 "other" "w" []).Set 1 "key" "value" [3]).Expired
            2 "other"
          = ((NewCache 10 : Cache String).Set 0 "other" "w" []).Expired 2 "other") ∧
      ((((NewCache 10 : Cache String).Set 0 "other" "w" []).Delete "key").data.lookup "other"
          = ((NewCache 10 : Cache String).Set 0 "other" "w" []).data.lookup "other" ∧
        (((NewCache 10 : Cache String).Set 0 "other" "w" []).Delete "key").Get
            copyCodec 2 "other" ""
          = ((NewCache 10 : Cache String).Set 0 "other" "w" []).Get copyCodec 2 "other" "" ∧
        (((NewCache 10 : Cache String).Set 0 "other" "w" []).Delete "key").Expired 2 "other"
          = ((NewCache 10 : Cache String).Set 0 "other" "w" []).Expired 2 "other") ∧
      (((NewCache 10 : Cache String).Set 0 "other" "w" []).data.lookup "key" = none →
        ((NewCache 10 : Cache String).Set 0 "other" "w" []).Delete "key"
          = (NewCache 10 : Cache String).Set 0 "other" "w" [])) :=
  ⟨by decide,
    key_isolation copyCodec ((NewCache 10 : Cache String).Set 0 "other" "w" []) "key"
      "other" "value" [3] 1 2 "" (by decide)⟩

/-- C18 (reads are pure).  Any sequence of `Get` and `Expired` calls, at any times and on
any keys, leaves the cache as it was (the map and the default time to live), whether the
looked-up entries are expired or not; and the entry of a key, expired or not, is still in
the map after any sequence of calls that holds no `Set` on that key, no `Delete` on that
key and no `Cleanup`. -/
theorem reads_are_pure {V : Type} (c : Cache V) (reads ops : List (Time × Op V))
    (k : String) (it : cacheItem V)
    (hreads : ∀ p ∈ reads, Op.isRead p.2 = true)
    (hl : c.data.lookup k = some it)
    (hops : ∀ p ∈ ops, Op.mayRemove k p.2 = false) :
    c.run reads = c ∧ (c.run ops).data.lookup k = some it := by
  refine ⟨run_of_reads reads hreads c, ?_⟩
  rw [run_lookup_of_not_mayRemove k ops hops c, hl]

theorem reads_are_pure_witness :
    (∀ p ∈ [((11 : Time), (Op.Get "key" : Op String)), (12, Op.Expired "key")],
      Op.isRead p.2 = true) ∧
    ((NewCache 10 : Cache String).Set 0 "key" "value" []).data.lookup "key"
      = some { Data := "value", ExpiresAt := 10 } ∧
    (∀ p ∈ [((11 : Time), (Op.Get "key" : Op String)), (12, Op.Set "other" "w" []),
        (13, Op.Delete "other")], Op.mayRemove "key" p.2 = false) ∧
    (((NewCache 10 : Cache String).Set 0 "key" "value" []).run
          [(11, Op.Get "key"), (12, Op.Expired "key")]
        = (NewCache 10 : Cache String).Set 0 "key" "value" [] ∧
      (((NewCache 10 : Cache String).Set 0 "key" "value" []).run
          [(11, Op.Get "key"), (12, Op.Set "other" "w" []),
            (13, Op.Delete "other")]).data.lookup "key"
        = some { Data := "value", ExpiresAt := 10 }) :=
  ⟨by decide, by decide, by decide,
    reads_are_pure ((NewCache 10 : Cache String).Set 0 "key" "value" [])
      [(11, Op.Get "key"), (12, Op.Expired "key")]
      [(11, Op.Get "key"), (12, Op.Set "other" "w" []), (13, Op.Delete "other")]
      "key" { Data := "value", ExpiresAt := 10 } (by decide) (by decide) (by decide)⟩

end cache
